import Mathlib

/-!
Verification of the modhunt incremental synchronization engine.

This file gives a shallow embedding of the sync engine found in
`modindex/db.go` (the refactored engine, `SynchronizeDatabase` /
`insertVersions` / `lastVersionInfo` / `printProgress`) and of the original
inline engine in `cmd/modhunt/internal/indexcmd/indexcmd.go` (`updateCmd`,
identical to `indexCommand` in the unnamed legacy source), and proves or
refutes the frozen claims about them.

Modelling conventions:
- `index.VersionInfo` becomes `VersionInfo` with the timestamp as a `Nat`
  (nanoseconds since the epoch); the Go zero time is timestamp `0`, mirroring
  `Timestamp.IsZero()`.
- The SQLite store (the `paths` table joined with the `versions` table) is a
  list of rows `VersionInfo`; the `paths` side never fails (path rows are
  created on demand and `path TEXT UNIQUE` lookups cannot violate a
  constraint), so only the `(path_id, version)` primary key of `versions`
  is modelled.
- A transaction is a function that either returns the committed store or an
  error, in which case the caller keeps the pre-transaction store (rollback).
- The remote feed is an external collaborator; where a whole-feed model is
  needed it is modelled from the spec (section 4.1).
-/

namespace Modhunt

/-- Record type of the module index feed, from `index.VersionInfo`
(`Path`, `Version`, `Timestamp`); the timestamp is nanoseconds since the
epoch, with `0` standing for Go's zero time. -/
structure VersionInfo where
  path : String
  version : String
  timestamp : Nat
deriving DecidableEq, Repr

/-- Go's zero value of `index.VersionInfo`, as left by
`var last index.VersionInfo` when the store is empty. -/
def zeroVersionInfo : VersionInfo := ⟨"", "", 0⟩

/-- The store: the `versions` rows joined with their `paths` row, each row
carrying (path, version, timestamp). -/
abbrev Store := List VersionInfo

/-- SQL `SELECT id FROM paths WHERE path = ?` joined with the
`(path_id, version)` primary-key check: does the store already hold a row
for this (path, version) pair? -/
def hasPathVersion (s : Store) (p v : String) : Bool :=
  s.any fun r => r.path = p ∧ r.version = v

/-- Merge block of `SynchronizeDatabase` (db.go lines 62-77): with a zero
cursor the fetched list is inserted unchanged; otherwise a first record
matching the cursor on (timestamp, path, version) is dropped, a mismatching
first record flags a protocol violation (the `BUG:` report) and keeps the
list unchanged.  `none` models the out-of-range access `versions[0]` in the
mismatch branch when `versions` is empty, which panics in Go. -/
def reconcile (last : VersionInfo) (versions : List VersionInfo) :
    Option (List VersionInfo × Bool) :=
  if last.timestamp = 0 then
    some (versions, false)
  else
    match versions with
    | [] => none
    | v :: rest =>
      if v.timestamp = last.timestamp ∧ v.path = last.path ∧
          v.version = last.version then
        some (rest, false)
      else
        some (v :: rest, true)

/-- Body of the transaction of `insertVersions` (db.go lines 150-172): the
accumulator is the transaction's view of the store; a plain
`INSERT INTO versions` fails when the `(path_id, version)` primary key is
already present. -/
def insertVersionsLoop (acc : Store) : List VersionInfo → Except Unit Store
  | [] => .ok acc
  | v :: rest =>
    if hasPathVersion acc v.path v.version then
      .error ()
    else
      insertVersionsLoop (acc ++ [v]) rest

/-- `insertVersions` of db.go: one transaction per batch; on error the
transaction is never committed, so the caller's store is unchanged. -/
def insertVersions (s : Store) (batch : List VersionInfo) : Except Unit Store :=
  insertVersionsLoop s batch

/-- Result of one iteration of the sync loop. -/
inductive StepResult where
  | done (s : Store)
  | crash
  | fail (s : Store)
  | next (s : Store) (last : VersionInfo)
deriving DecidableEq, Repr

/-- One iteration of the loop of `SynchronizeDatabase` (db.go lines 42-106):
fetch since the cursor timestamp, merge against the cursor, stop when
nothing is left to insert, otherwise insert the batch in one transaction
and advance the cursor to the last inserted record. -/
def syncStep (fetch : Nat → List VersionInfo) (s : Store) (last : VersionInfo) :
    StepResult :=
  match reconcile last (fetch last.timestamp) with
  | none => .crash
  | some (toInsert, _protocolViolation) =>
    if toInsert = [] then
      .done s
    else
      match insertVersions s toInsert with
      | .error _ => .fail s
      | .ok s' => .next s' (toInsert.getLastD zeroVersionInfo)

/-- Outcome of a whole run of the sync loop. -/
inductive RunResult where
  | done (s : Store) (last : VersionInfo)
  | crash
  | fail (s : Store)
  | outOfFuel
deriving DecidableEq, Repr

/-- The loop of `SynchronizeDatabase`, fuelled: `done` carries the final
store and the cursor held when the loop broke with "Index is up-to-date". -/
def syncRun (fetch : Nat → List VersionInfo) :
    Nat → Store → VersionInfo → RunResult
  | 0, _, _ => .outOfFuel
  | n + 1, s, last =>
    match syncStep fetch s last with
    | .done s' => .done s' last
    | .crash => .crash
    | .fail s' => .fail s'
    | .next s' last' => syncRun fetch n s' last'

/-- SQLite `INSERT OR REPLACE INTO versions` (indexcmd.go line 165): the
conflicting `(path_id, version)` row, if any, is removed and the new row
inserted. -/
def insertOrReplace (s : Store) (v : VersionInfo) : Store :=
  (s.filter fun r => ¬(r.path = v.path ∧ r.version = v.version)) ++ [v]

/-- Insert-or-replace of a whole list, in order, as the transaction body of
the original engine does for the records it does not skip. -/
def insertAllB (s : Store) (l : List VersionInfo) : Store :=
  l.foldl insertOrReplace s

/-- Transaction of the original engine (indexcmd.go lines 125-173): the
first record is skipped when the cursor is non-zero and it matches the
cursor on (path, version, timestamp); a mismatching first record is
reported (`BUG:`) and still inserted; every record is written with
`INSERT OR REPLACE`. -/
def txB (last : VersionInfo) (s : Store) (versions : List VersionInfo) : Store :=
  match versions with
  | [] => s
  | v :: rest =>
    if last.timestamp ≠ 0 ∧ v.path = last.path ∧ v.version = last.version ∧
        v.timestamp = last.timestamp then
      insertAllB s rest
    else
      insertAllB s (v :: rest)

/-- Termination test of the original engine (indexcmd.go lines 114-121):
stop when the fetch returned zero records, or exactly one record equal to
the cursor on (path, version, timestamp). -/
def upToDateB (last : VersionInfo) (versions : List VersionInfo) : Bool :=
  match versions with
  | [] => true
  | [v] => v.path = last.path ∧ v.version = last.version ∧
      v.timestamp = last.timestamp
  | _ => false

/-- One iteration of the original inline engine (`updateCmd` in indexcmd.go,
identical to the legacy `indexCommand`): termination is decided before
merging, then the whole fetched list runs through the transaction and the
cursor advances to the last fetched record. -/
def syncStepB (fetch : Nat → List VersionInfo) (s : Store) (last : VersionInfo) :
    StepResult :=
  if upToDateB last (fetch last.timestamp) then
    .done s
  else
    .next (txB last s (fetch last.timestamp))
      ((fetch last.timestamp).getLastD zeroVersionInfo)

/-- The loop of the original inline engine, fuelled. -/
def syncRunB (fetch : Nat → List VersionInfo) :
    Nat → Store → VersionInfo → RunResult
  | 0, _, _ => .outOfFuel
  | n + 1, s, last =>
    match syncStepB fetch s last with
    | .done s' => .done s' last
    | .crash => .crash
    | .fail s' => .fail s'
    | .next s' last' => syncRunB fetch n s' last'

/-- Decimal digit character. -/
def digitChar (d : Nat) : Char := Char.ofNat (48 + d)

/-- Zero-padded fixed-width decimal rendering, most significant digit
first, as Go's `Format` pads calendar fields. -/
def pad : Nat → Nat → List Char
  | 0, _ => []
  | w + 1, n => digitChar (n / 10 ^ w) :: pad w (n % 10 ^ w)

/-- Trailing-zero removal of Go's `.999999999` fractional-second format. -/
def dropTrailingZeros (l : List Char) : List Char :=
  (l.reverse.dropWhile fun c => c = '0').reverse

/-- Fractional-second part of `Format(time.RFC3339Nano)`: omitted when the
nanosecond field is zero, otherwise a dot and the 9-digit nanosecond count
with trailing zeros removed. -/
def fracNano (n : Nat) : List Char :=
  if n = 0 then [] else '.' :: dropTrailingZeros (pad 9 n)

/-- Byte-wise (memcmp-style) order on character lists, a proper prefix
sorting first, as SQLite's default BINARY collation compares TEXT. -/
def charListLt : List Char → List Char → Bool
  | [], [] => false
  | [], _ :: _ => true
  | _ :: _, [] => false
  | a :: as, b :: bs =>
    if a.toNat < b.toNat then true
    else if b.toNat < a.toNat then false
    else charListLt as bs

/-- Order that `ORDER BY v.timestamp` induces on two stored timestamps.
The column holds `Format(time.RFC3339Nano)` text: a fixed-width 19-byte
`YYYY-MM-DDTHH:MM:SS` calendar prefix — strictly monotone in the whole
second for the years the layout covers — followed by the trimmed fraction
(`fracNano`) and `Z`.  Under BINARY collation the comparison is therefore
by whole second first and, within the same second, byte-wise on the
fraction-and-zone suffix; the trimmed fraction makes this differ from
numeric order (`…12Z` sorts above `…12.5Z`). -/
def timestampTextLt (t1 t2 : Nat) : Bool :=
  if t1 / 10 ^ 9 = t2 / 10 ^ 9 then
    charListLt (fracNano (t1 % 10 ^ 9) ++ ['Z'])
      (fracNano (t2 % 10 ^ 9) ++ ['Z'])
  else
    t1 / 10 ^ 9 < t2 / 10 ^ 9

/-- `lastVersionInfo` of db.go: `ORDER BY v.timestamp DESC LIMIT 1` on the
TEXT column, i.e. the row whose stored RFC3339Nano text is byte-wise
greatest, or the zero `VersionInfo` when the store has no rows.  Because
of the trimmed fraction this need not be the numerically latest row. -/
def lastVersionInfo : Store → VersionInfo
  | [] => zeroVersionInfo
  | r :: rest =>
    rest.foldl
      (fun acc x => if timestampTextLt acc.timestamp x.timestamp then x
        else acc) r

/-- Modelled from the spec: the remote feed's response contract
(section 4.1).  The feed's own server code is not part of this repository;
per the contract, `GetVersions` returns the feed's records with timestamp
at or after `since` (inclusive; a zero `since` starts from the earliest
record), at most `limit` of them, in feed order. -/
def getVersions (feed : List VersionInfo) (since : Nat) (limit : Nat) :
    List VersionInfo :=
  (feed.filter fun r => since ≤ r.timestamp).take limit

/-! Helper lemmas about the writer and the loop. -/

lemma insertVersionsLoop_ok_eq :
    ∀ (l : List VersionInfo) (acc r : Store),
      insertVersionsLoop acc l = .ok r → r = acc ++ l := by
  intro l
  induction l with
  | nil => intro acc r h; simp [insertVersionsLoop] at h; simp [h]
  | cons v rest ih =>
    intro acc r h
    rw [insertVersionsLoop] at h
    by_cases hpv : hasPathVersion acc v.path v.version
    · simp [hpv] at h
    · simp only [hpv, if_false, Bool.false_eq_true] at h
      have := ih (acc ++ [v]) r h
      simpa using this

lemma syncStep_done_inv (f : Nat → List VersionInfo) (s : Store)
    (c : VersionInfo) (sD : Store) (h : syncStep f s c = .done sD) :
    sD = s ∧ ∃ viol, reconcile c (f c.timestamp) = some ([], viol) := by
  unfold syncStep at h
  cases hrec : reconcile c (f c.timestamp) with
  | none => rw [hrec] at h; simp at h
  | some p =>
    obtain ⟨b, viol⟩ := p
    rw [hrec] at h
    by_cases hb : b = []
    · subst hb
      simp at h
      exact ⟨h.symm, viol, rfl⟩
    · simp only [hb, if_false] at h
      cases hins : insertVersions s b with
      | error e => rw [hins] at h; simp at h
      | ok s2 => rw [hins] at h; simp at h

lemma syncStep_fail_inv (f : Nat → List VersionInfo) (s : Store)
    (c : VersionInfo) (sF : Store) (h : syncStep f s c = .fail sF) :
    sF = s ∧ ∃ b viol, reconcile c (f c.timestamp) = some (b, viol) ∧
      b ≠ [] ∧ insertVersions s b = .error () := by
  unfold syncStep at h
  cases hrec : reconcile c (f c.timestamp) with
  | none => rw [hrec] at h; simp at h
  | some p =>
    obtain ⟨b, viol⟩ := p
    rw [hrec] at h
    by_cases hb : b = []
    · simp [hb] at h
    · simp only [hb, if_false] at h
      cases hins : insertVersions s b with
      | error e =>
        rw [hins] at h
        simp at h
        exact ⟨h.symm, b, viol, rfl, hb, by rw [hins]⟩
      | ok s2 => rw [hins] at h; simp at h

lemma syncStep_next_inv (f : Nat → List VersionInfo) (s : Store)
    (c : VersionInfo) (s' : Store) (c' : VersionInfo)
    (h : syncStep f s c = .next s' c') :
    ∃ b viol, reconcile c (f c.timestamp) = some (b, viol) ∧ b ≠ [] ∧
      insertVersions s b = .ok s' ∧ c' = b.getLastD zeroVersionInfo ∧
      s' = s ++ b := by
  unfold syncStep at h
  cases hrec : reconcile c (f c.timestamp) with
  | none => rw [hrec] at h; simp at h
  | some p =>
    obtain ⟨b, viol⟩ := p
    rw [hrec] at h
    by_cases hb : b = []
    · simp [hb] at h
    · simp only [hb, if_false] at h
      cases hins : insertVersions s b with
      | error e => rw [hins] at h; simp at h
      | ok s2 =>
        rw [hins] at h
        simp at h
        refine ⟨b, viol, rfl, hb, ?_, ?_, ?_⟩
        · rw [hins, h.1]
        · rw [List.getLastD_eq_getLast?]
          exact h.2.symm
        · rw [← h.1]
          exact insertVersionsLoop_ok_eq b s s2 hins

/-- C1.  The claim says a fetch returning zero records, or a single record
identical to the cursor, ends the loop in `DONE`.  In
`SynchronizeDatabase` this is false for the zero-record case under a
non-zero cursor: the mismatch branch (db.go line 74) evaluates
`versions[0]` on the empty slice and panics, while the single matching
record does end the run in `DONE`.  This theorem evaluates the engine at
the failing input (store and cursor at record (m, v1, 7), fetch returning
`[]`) and, for contrast, at the singleton-overlap input the claim also
covers. -/
theorem c1_empty_fetch_crashes :
    syncRun (fun _ => ([] : List VersionInfo)) 3
      [⟨"m", "v1", 7⟩] ⟨"m", "v1", 7⟩ = .crash ∧
    syncRun (fun _ => [⟨"m", "v1", 7⟩]) 3
      [⟨"m", "v1", 7⟩] ⟨"m", "v1", 7⟩ =
      .done [⟨"m", "v1", 7⟩] ⟨"m", "v1", 7⟩ := by
  exact ⟨by decide, by decide⟩

/-- C2: for a non-zero cursor and a non-empty fetched batch whose first
record equals the cursor on (path, version, timestamp), the merge block of
`SynchronizeDatabase` drops that first record: the batch submitted for
insertion is exactly the fetched tail, in order, with no protocol
violation flagged. -/
theorem c2_overlap_dropped (last v : VersionInfo) (rest : List VersionInfo)
    (h0 : last.timestamp ≠ 0)
    (hm : v.timestamp = last.timestamp ∧ v.path = last.path ∧
      v.version = last.version) :
    reconcile last (v :: rest) = some (rest, false) := by
  simp [reconcile, h0, hm]

/-- Witness for C2 at a concrete cursor and batch. -/
theorem c2_witness :
    reconcile ⟨"m", "v1", 7⟩ [⟨"m", "v1", 7⟩, ⟨"n", "v2", 9⟩] =
      some ([⟨"n", "v2", 9⟩], false) :=
  c2_overlap_dropped ⟨"m", "v1", 7⟩ ⟨"m", "v1", 7⟩ [⟨"n", "v2", 9⟩]
    (by decide) (by decide)

/-- C5: for a non-zero cursor and a non-empty fetched batch whose first
record does not match the cursor, `SynchronizeDatabase` flags the protocol
violation (the `BUG:` report), submits the fetched batch unchanged for
insertion, and does not abort: if the batch write succeeds the loop simply
advances to the next iteration. -/
theorem c5_protocol_violation_continues (f : Nat → List VersionInfo)
    (s : Store) (last v : VersionInfo) (rest : List VersionInfo)
    (h0 : last.timestamp ≠ 0) (hf : f last.timestamp = v :: rest)
    (hne : ¬(v.timestamp = last.timestamp ∧ v.path = last.path ∧
      v.version = last.version)) :
    reconcile last (v :: rest) = some (v :: rest, true) ∧
    ∀ s', insertVersions s (v :: rest) = .ok s' →
      syncStep f s last = .next s' ((v :: rest).getLastD zeroVersionInfo) := by
  have hrec : reconcile last (v :: rest) = some (v :: rest, true) := by
    simp [reconcile, h0, hne]
  refine ⟨hrec, fun s' hins => ?_⟩
  unfold syncStep
  rw [hf, hrec]
  simp [hins]

/-- Witness for C5: mismatching head is kept, flagged, and the loop
continues after a successful insert. -/
theorem c5_witness :
    reconcile ⟨"m", "v1", 7⟩ [⟨"x", "v9", 8⟩] = some ([⟨"x", "v9", 8⟩], true) ∧
    ∀ s', insertVersions [⟨"m", "v1", 7⟩] [⟨"x", "v9", 8⟩] = .ok s' →
      syncStep (fun _ => [⟨"x", "v9", 8⟩]) [⟨"m", "v1", 7⟩] ⟨"m", "v1", 7⟩ =
        .next s' ([⟨"x", "v9", 8⟩].getLastD zeroVersionInfo) :=
  c5_protocol_violation_continues (fun _ => [⟨"x", "v9", 8⟩])
    [⟨"m", "v1", 7⟩] ⟨"m", "v1", 7⟩ ⟨"x", "v9", 8⟩ []
    (by decide) rfl (by decide)

lemma getLastD_mem {α : Type} :
    ∀ (l : List α) (d : α), l ≠ [] → l.getLastD d ∈ l := by
  intro l
  induction l with
  | nil => intro d h; exact absurd rfl h
  | cons a l ih =>
    intro d _
    rw [List.getLastD_cons]
    by_cases hl : l = []
    · subst hl; simp
    · exact List.mem_cons_of_mem a (ih a hl)

lemma reconcile_mem (c : VersionInfo) (vs b : List VersionInfo) (viol : Bool)
    (h : reconcile c vs = some (b, viol)) : ∀ r ∈ b, r ∈ vs := by
  unfold reconcile at h
  by_cases h0 : c.timestamp = 0
  · simp [h0] at h
    rw [h.1]
    exact fun r hr => hr
  · simp only [h0, if_false] at h
    match vs with
    | [] => simp at h
    | v :: rest =>
      by_cases hm : v.timestamp = c.timestamp ∧ v.path = c.path ∧
          v.version = c.version
      · simp [hm] at h
        rw [← h.1]
        exact fun r hr => List.mem_cons_of_mem v hr
      · simp [hm] at h
        rw [← h.1]
        exact fun r hr => hr

/-- C4: if a batch write fails, the run aborts with the store exactly as it
was before that batch: the failing step exposes a non-empty reconciled
batch whose transactional write errored against that very store (so none
of the batch's rows were committed), and the aborted store extends the
run's starting store (all earlier committed batches remain intact, as
appended rows). -/
theorem c4_batch_atomic (f : Nat → List VersionInfo) :
    ∀ (n : Nat) (s : Store) (c : VersionInfo) (sF : Store),
      syncRun f n s c = .fail sF →
      (∃ t, sF = s ++ t) ∧
      ∃ cf b viol, reconcile cf (f cf.timestamp) = some (b, viol) ∧
        b ≠ [] ∧ insertVersions sF b = .error () := by
  intro n
  induction n with
  | zero => intro s c sF h; simp [syncRun] at h
  | succ n ih =>
    intro s c sF h
    rw [syncRun] at h
    cases hstep : syncStep f s c with
    | done s₁ => rw [hstep] at h; simp at h
    | crash => rw [hstep] at h; simp at h
    | fail s₁ =>
      rw [hstep] at h
      simp at h
      obtain ⟨hs, b, viol, hrec, hb, herr⟩ := syncStep_fail_inv f s c s₁ hstep
      subst hs
      rw [← h]
      exact ⟨⟨[], by simp⟩, c, b, viol, hrec, hb, herr⟩
    | next s' c' =>
      rw [hstep] at h
      obtain ⟨⟨t, hts⟩, hrest⟩ := ih s' c' sF h
      obtain ⟨b, _, _, _, _, _, hs'⟩ := syncStep_next_inv f s c s' c' hstep
      exact ⟨⟨b ++ t, by rw [hts, hs', List.append_assoc]⟩, hrest⟩

/-- Witness for C4: starting from an empty store, a feed batch that
re-emits the same (path, version) twice makes the plain insert fail and the
run abort with the pre-batch (empty) store. -/
theorem c4_witness :
    (∃ t, ([] : Store) = [] ++ t) ∧
    ∃ cf b viol,
      reconcile cf ((fun _ => [⟨"p", "v1", 5⟩, ⟨"p", "v1", 9⟩])
        cf.timestamp) = some (b, viol) ∧
      b ≠ [] ∧ insertVersions [] b = .error () :=
  c4_batch_atomic (fun _ => [⟨"p", "v1", 5⟩, ⟨"p", "v1", 9⟩])
    2 [] zeroVersionInfo [] (by decide)

/-- C6: a successful loop iteration of `SynchronizeDatabase` advances the
in-memory cursor to the last element of the batch it just inserted (the
reconciled batch, not a value re-read from the store), and — provided the
feed answers with records ordered by non-decreasing timestamp, all at or
after the requested `since` — the cursor timestamp never decreases. -/
theorem c6_cursor_advance_monotone (f : Nat → List VersionInfo) (s : Store)
    (c : VersionInfo) (s' : Store) (c' : VersionInfo)
    (_hsorted : (f c.timestamp).Pairwise fun a b => a.timestamp ≤ b.timestamp)
    (hsince : ∀ r ∈ f c.timestamp, c.timestamp ≤ r.timestamp)
    (h : syncStep f s c = .next s' c') :
    (∃ b viol, reconcile c (f c.timestamp) = some (b, viol) ∧
      insertVersions s b = .ok s' ∧ c' = b.getLastD zeroVersionInfo) ∧
    c.timestamp ≤ c'.timestamp := by
  obtain ⟨b, viol, hrec, hb, hins, hc', _⟩ := syncStep_next_inv f s c s' c' h
  have hmem : c' ∈ b := by
    rw [hc']
    exact getLastD_mem b zeroVersionInfo hb
  exact ⟨⟨b, viol, hrec, hins, hc'⟩,
    hsince c' (reconcile_mem c (f c.timestamp) b viol hrec c' hmem)⟩

/-- Witness for C6 at a two-record feed starting from the empty store. -/
theorem c6_witness :
    (∃ b viol,
      reconcile zeroVersionInfo
        (getVersions [⟨"a", "v1", 3⟩, ⟨"b", "v1", 4⟩] zeroVersionInfo.timestamp
          2000) = some (b, viol) ∧
      insertVersions [] b = .ok [⟨"a", "v1", 3⟩, ⟨"b", "v1", 4⟩] ∧
      ⟨"b", "v1", 4⟩ = b.getLastD zeroVersionInfo) ∧
    zeroVersionInfo.timestamp ≤ (⟨"b", "v1", 4⟩ : VersionInfo).timestamp :=
  c6_cursor_advance_monotone
    (fun since => getVersions [⟨"a", "v1", 3⟩, ⟨"b", "v1", 4⟩] since 2000)
    [] zeroVersionInfo [⟨"a", "v1", 3⟩, ⟨"b", "v1", 4⟩] ⟨"b", "v1", 4⟩
    (by decide) (by decide) (by decide)

/-- Two's-complement wrap of Go's `int64` arithmetic. -/
def wrap64 (n : Int) : Int := (n + 2 ^ 63) % 2 ^ 64 - 2 ^ 63

/-- Remaining-runtime estimate of `printProgress` (db.go lines 111-134):
nothing is reported before the first non-empty batch (zero cursor
timestamp); with a non-zero cursor the estimate
`openHours * int64(duration) / coveredHours` is emitted only under the
`coveredHours > 0` guard — no division happens otherwise.  `Int.tdiv` is
Go's truncating `int64` division and the product wraps as `int64`. -/
def progressRemaining (lastTimestamp : Nat)
    (coveredHours openHours durationNs : Int) : Option Int :=
  if lastTimestamp = 0 then
    none
  else if 0 < coveredHours then
    some (Int.tdiv (wrap64 (openHours * durationNs)) coveredHours)
  else
    none

lemma wrap64_eq_self (n : Int) (h1 : -(2 ^ 63) ≤ n) (h2 : n < 2 ^ 63) :
    wrap64 n = n := by
  unfold wrap64
  rw [Int.emod_eq_of_lt (by omega) (by omega)]
  omega

/-- C8: on every iteration after the first non-empty batch (non-zero cursor
timestamp), the progress report's remaining-runtime estimate is
`openHours * duration / coveredHours` over whole integer hours (in the
`int64` range no wrap occurs and the division is Go's truncating one), and
the estimate is omitted — no division is performed — when the covered span
is zero. -/
theorem c8_progress_estimate (lastTs : Nat) (ch oh dns : Int)
    (hlast : lastTs ≠ 0) (hlo : -(2 ^ 63) ≤ oh * dns)
    (hhi : oh * dns < 2 ^ 63) :
    (ch = 0 → progressRemaining lastTs ch oh dns = none) ∧
    (0 < ch → progressRemaining lastTs ch oh dns =
      some (Int.tdiv (oh * dns) ch)) := by
  constructor
  · intro h0
    simp [progressRemaining, hlast, h0]
  · intro hpos
    simp only [progressRemaining, hlast, if_false, hpos, if_true]
    rw [wrap64_eq_self (oh * dns) hlo hhi]

/-- Witness for C8: a zero covered span yields no estimate; a positive one
yields the truncated quotient. -/
theorem c8_witness :
    progressRemaining 5 0 3 7 = none ∧
    progressRemaining 5 2 3 7 = some 10 := by
  constructor
  · exact (c8_progress_estimate 5 0 3 7 (by decide) (by decide)
      (by decide)).1 rfl
  · have := (c8_progress_estimate 5 2 3 7 (by decide) (by decide)
      (by decide)).2 (by decide)
    rw [this]
    decide

/-- Rows of the store holding a given (path, version) pair. -/
def versionRows (s : Store) (p v : String) : List VersionInfo :=
  s.filter fun r => r.path = p ∧ r.version = v

lemma hasPathVersion_append_left (s : Store) (x : VersionInfo)
    (p v : String) (h : hasPathVersion s p v = true) :
    hasPathVersion (s ++ [x]) p v = true := by
  unfold hasPathVersion at h ⊢
  rw [List.any_append, h]
  rfl

lemma insertVersions_error_of_dup :
    ∀ (b : List VersionInfo) (s : Store) (r : VersionInfo), r ∈ b →
      hasPathVersion s r.path r.version = true →
      insertVersions s b = .error () := by
  intro b
  induction b with
  | nil => intro s r hr; simp at hr
  | cons x rest ih =>
    intro s r hr hpv
    show insertVersionsLoop s (x :: rest) = .error ()
    rw [insertVersionsLoop]
    by_cases hx : hasPathVersion s x.path x.version
    · simp [hx]
    · rcases List.mem_cons.mp hr with hrx | hrr
      · subst hrx; exact absurd hpv hx
      · simp only [hx, if_false, Bool.false_eq_true]
        exact ih (s ++ [x]) r hrr
          (hasPathVersion_append_left s x r.path r.version hpv)

lemma versionRows_insertOrReplace_other (s : Store) (y : VersionInfo)
    (p v : String) (hy : ¬(y.path = p ∧ y.version = v)) :
    versionRows (insertOrReplace s y) p v = versionRows s p v := by
  unfold versionRows insertOrReplace
  rw [List.filter_append, List.filter_filter]
  have h1 : List.filter (fun r : VersionInfo =>
      decide (r.path = p ∧ r.version = v) &&
      decide (¬(r.path = y.path ∧ r.version = y.version))) s =
      List.filter (fun r : VersionInfo =>
        decide (r.path = p ∧ r.version = v)) s := by
    apply List.filter_congr
    intro x _
    by_cases hx : x.path = p ∧ x.version = v
    · have hpy : ¬(p = y.path ∧ v = y.version) := fun hc =>
        hy ⟨hc.1.symm, hc.2.symm⟩
      simp [hx.1, hx.2, hpy]
    · simp [hx]
  rw [h1]
  have h2 : List.filter (fun r : VersionInfo =>
      decide (r.path = p ∧ r.version = v)) [y] = [] := by
    simp [hy]
  rw [h2, List.append_nil]

lemma versionRows_insertOrReplace_self (s : Store) (y : VersionInfo)
    (p v : String) (hy : y.path = p ∧ y.version = v) :
    versionRows (insertOrReplace s y) p v = [y] := by
  unfold versionRows insertOrReplace
  rw [List.filter_append, List.filter_filter]
  have h1 : List.filter (fun r : VersionInfo =>
      decide (r.path = p ∧ r.version = v) &&
      decide (¬(r.path = y.path ∧ r.version = y.version))) s = [] := by
    rw [List.filter_eq_nil_iff]
    intro x _
    by_cases hx : x.path = p ∧ x.version = v
    · have : x.path = y.path ∧ x.version = y.version :=
        ⟨hy.1 ▸ hx.1, hy.2 ▸ hx.2⟩
      simp [this]
    · simp [hx]
  rw [h1]
  have h2 : List.filter (fun r : VersionInfo =>
      decide (r.path = p ∧ r.version = v)) [y] = [y] := by
    simp [hy]
  rw [h2, List.nil_append]

lemma versionRows_insertAllB_no_match :
    ∀ (l : List VersionInfo) (s : Store) (p v : String),
      (∀ y ∈ l, ¬(y.path = p ∧ y.version = v)) →
      versionRows (insertAllB s l) p v = versionRows s p v := by
  intro l
  induction l with
  | nil => intro s p v _; rfl
  | cons x rest ih =>
    intro s p v hno
    show versionRows (insertAllB (insertOrReplace s x) rest) p v =
      versionRows s p v
    rw [ih (insertOrReplace s x) p v fun y hy => hno y (List.mem_cons_of_mem x hy)]
    exact versionRows_insertOrReplace_other s x p v
      (hno x (List.mem_cons_self x rest))

lemma insertAllB_last_write_wins :
    ∀ (b : List VersionInfo) (s : Store) (p v : String) (r : VersionInfo),
      (b.reverse.find? fun x => x.path = p ∧ x.version = v) = some r →
      versionRows (insertAllB s b) p v = [r] := by
  intro b
  induction b with
  | nil => intro s p v r h; simp at h
  | cons x rest ih =>
    intro s p v r h
    rw [List.reverse_cons, List.find?_append] at h
    show versionRows (insertAllB (insertOrReplace s x) rest) p v = [r]
    cases hrest : rest.reverse.find? fun x => decide (x.path = p ∧ x.version = v) with
    | some r₁ =>
      rw [hrest] at h
      simp only [Option.or_some] at h
      rw [← Option.some_inj.mp h]
      exact ih (insertOrReplace s x) p v r₁ hrest
    | none =>
      rw [hrest] at h
      simp only [Option.none_or] at h
      have hx : (decide (x.path = p ∧ x.version = v)) = true ∧ r = x := by
        by_cases hc : x.path = p ∧ x.version = v
        · simp [List.find?, hc] at h
          exact ⟨by simp [hc], h.symm⟩
        · simp [List.find?, hc] at h
      have hnorest : ∀ y ∈ rest, ¬(y.path = p ∧ y.version = v) := by
        intro y hy
        have := List.find?_eq_none.mp hrest y (List.mem_reverse.mpr hy)
        simpa using this
      rw [versionRows_insertAllB_no_match rest (insertOrReplace s x) p v hnorest]
      rw [hx.2]
      exact versionRows_insertOrReplace_self s x p v (by simpa using hx.1)

/-- C3 counterexample: the refactored Persistence Writer
(`insertVersions` in db.go) issues a plain `INSERT`, so a batch whose
record's (path, version) pair already exists as a row errors on the unique
key instead of succeeding — the claimed insert-or-replace semantics do not
hold for it. -/
theorem c3_plain_insert_fails_cx :
    insertVersions [⟨"p", "v1", 5⟩] [⟨"p", "v1", 9⟩] = .error () := rfl

/-- C3 as amended: the original inline engine's writer (indexcmd.go,
`INSERT OR REPLACE`) never fails on the (path, version) unique key and
leaves exactly one row for the pair, carrying the timestamp of the last
written record for it; the refactored writer (`insertVersions` in db.go)
instead uses a plain `INSERT` and fails on any batch containing a record
whose (path, version) pair is already stored. -/
theorem c3_amended_insert_policies :
    (∀ (s : Store) (b : List VersionInfo) (p v : String) (r : VersionInfo),
      (b.reverse.find? fun x => x.path = p ∧ x.version = v) = some r →
      versionRows (insertAllB s b) p v = [r]) ∧
    (∀ (s : Store) (b : List VersionInfo) (r : VersionInfo), r ∈ b →
      hasPathVersion s r.path r.version = true →
      insertVersions s b = .error ()) :=
  ⟨fun s b p v r h => insertAllB_last_write_wins b s p v r h,
   fun s b r hr hpv => insertVersions_error_of_dup b s r hr hpv⟩

/-- Witness for C3 as amended: replacing leaves the single (p, v1) row with
the new timestamp 9; the plain insert errors on the same input. -/
theorem c3_witness :
    versionRows (insertAllB [⟨"p", "v1", 5⟩] [⟨"p", "v1", 9⟩]) "p" "v1" =
      [⟨"p", "v1", 9⟩] ∧
    insertVersions [⟨"p", "v1", 5⟩] [⟨"p", "v1", 9⟩] = .error () :=
  ⟨c3_amended_insert_policies.1 [⟨"p", "v1", 5⟩] [⟨"p", "v1", 9⟩] "p" "v1"
      ⟨"p", "v1", 9⟩ (by decide),
   c3_amended_insert_policies.2 [⟨"p", "v1", 5⟩] [⟨"p", "v1", 9⟩]
      ⟨"p", "v1", 9⟩ (by decide) (by decide)⟩

lemma filter_no_match_eq_self (s : Store) (y : VersionInfo)
    (h : hasPathVersion s y.path y.version = false) :
    (s.filter fun r => ¬(r.path = y.path ∧ r.version = y.version)) = s := by
  rw [List.filter_eq_self]
  intro a ha
  have h2 := List.any_eq_false.mp h a ha
  simp at h2 ⊢
  tauto

lemma insertOrReplace_no_dup (s : Store) (y : VersionInfo)
    (h : hasPathVersion s y.path y.version = false) :
    insertOrReplace s y = s ++ [y] := by
  unfold insertOrReplace
  rw [filter_no_match_eq_self s y h]

lemma insertAllB_of_ok :
    ∀ (b : List VersionInfo) (s s' : Store),
      insertVersionsLoop s b = .ok s' → insertAllB s b = s' := by
  intro b
  induction b with
  | nil =>
    intro s s' h
    simp [insertVersionsLoop] at h
    simpa [insertAllB] using h
  | cons x rest ih =>
    intro s s' h
    rw [insertVersionsLoop] at h
    by_cases hx : hasPathVersion s x.path x.version
    · simp [hx] at h
    · simp only [hx, if_false, Bool.false_eq_true] at h
      show insertAllB (insertOrReplace s x) rest = s'
      rw [insertOrReplace_no_dup s x (Bool.eq_false_iff.mpr hx)]
      exact ih (s ++ [x]) s' h

lemma getLastD_cons_irrel (v : VersionInfo) (rest : List VersionInfo)
    (d : VersionInfo) (h : rest ≠ []) :
    (v :: rest).getLastD d = rest.getLastD d := by
  match rest with
  | [] => exact absurd rfl h
  | y :: ys => rw [List.getLastD_cons, List.getLastD_cons, List.getLastD_cons]

lemma reconcile_zero (c : VersionInfo) (vs : List VersionInfo)
    (h0 : c.timestamp = 0) : reconcile c vs = some (vs, false) := by
  simp [reconcile, h0]

lemma reconcile_nil (c : VersionInfo) (h0 : ¬c.timestamp = 0) :
    reconcile c [] = none := by
  simp [reconcile, h0]

lemma reconcile_cons_hit (c v : VersionInfo) (rest : List VersionInfo)
    (h0 : ¬c.timestamp = 0)
    (hm : v.timestamp = c.timestamp ∧ v.path = c.path ∧
      v.version = c.version) :
    reconcile c (v :: rest) = some (rest, false) := by
  simp [reconcile, h0, hm]

lemma reconcile_cons_miss (c v : VersionInfo) (rest : List VersionInfo)
    (h0 : ¬c.timestamp = 0)
    (hm : ¬(v.timestamp = c.timestamp ∧ v.path = c.path ∧
      v.version = c.version)) :
    reconcile c (v :: rest) = some (v :: rest, true) := by
  simp [reconcile, h0, hm]

lemma txB_cons (c : VersionInfo) (s : Store) (v : VersionInfo)
    (rest : List VersionInfo) :
    txB c s (v :: rest) =
      if c.timestamp ≠ 0 ∧ v.path = c.path ∧ v.version = c.version ∧
          v.timestamp = c.timestamp then
        insertAllB s rest
      else
        insertAllB s (v :: rest) := rfl

lemma upToDateB_single (c v : VersionInfo) :
    upToDateB c [v] =
      decide (v.path = c.path ∧ v.version = c.version ∧
        v.timestamp = c.timestamp) := rfl

lemma stepB_agree_done (f : Nat → List VersionInfo) (s : Store)
    (c : VersionInfo) (sD : Store)
    (h : syncStep f s c = .done sD) : syncStepB f s c = .done sD := by
  obtain ⟨hsD, viol, hrec⟩ := syncStep_done_inv f s c sD h
  subst hsD
  by_cases h0 : c.timestamp = 0
  · rw [reconcile_zero c (f c.timestamp) h0] at hrec
    have hnil : f c.timestamp = [] :=
      congrArg Prod.fst (Option.some_inj.mp hrec)
    simp [syncStepB, hnil, upToDateB]
  · cases hv : f c.timestamp with
    | nil =>
      rw [hv, reconcile_nil c h0] at hrec
      simp at hrec
    | cons v rest =>
      by_cases hm : v.timestamp = c.timestamp ∧ v.path = c.path ∧
          v.version = c.version
      · rw [hv, reconcile_cons_hit c v rest h0 hm] at hrec
        have hrest : rest = [] := congrArg Prod.fst (Option.some_inj.mp hrec)
        subst hrest
        unfold syncStepB
        rw [hv, upToDateB_single c v,
          decide_eq_true ⟨hm.2.1, hm.2.2, hm.1⟩, if_pos rfl]
      · rw [hv, reconcile_cons_miss c v rest h0 hm] at hrec
        have := congrArg Prod.fst (Option.some_inj.mp hrec)
        simp at this

lemma stepB_agree_next (f : Nat → List VersionInfo) (s : Store)
    (c : VersionInfo) (s' : Store) (c' : VersionInfo)
    (hpos : ∀ since r, r ∈ f since → r.timestamp ≠ 0)
    (h : syncStep f s c = .next s' c') : syncStepB f s c = .next s' c' := by
  obtain ⟨b, viol, hrec, hb, hins, hc', hs'⟩ := syncStep_next_inv f s c s' c' h
  by_cases h0 : c.timestamp = 0
  · rw [reconcile_zero c (f c.timestamp) h0] at hrec
    have hbf : f c.timestamp = b := congrArg Prod.fst (Option.some_inj.mp hrec)
    cases hv : f c.timestamp with
    | nil => exact absurd (by rw [← hbf, hv]) hb
    | cons v rest =>
      have hbv : b = v :: rest := by rw [← hbf, hv]
      have hup : upToDateB c (v :: rest) = false := by
        cases rest with
        | nil =>
          rw [upToDateB_single c v]
          have hvmem : v ∈ f c.timestamp := by rw [hv]; simp
          have hvt := hpos c.timestamp v hvmem
          simp
          intro _ _
          rw [h0]
          exact hvt
        | cons y ys => rfl
      unfold syncStepB
      rw [hv, hup]
      simp only [Bool.false_eq_true, if_false]
      have htx : txB c s (v :: rest) = s' := by
        rw [txB_cons, if_neg (by intro hcon; exact hcon.1 h0)]
        exact insertAllB_of_ok (v :: rest) s s' (by rw [← hbv]; exact hins)
      rw [htx, ← hbv, ← hc']
  · cases hv : f c.timestamp with
    | nil =>
      rw [hv, reconcile_nil c h0] at hrec
      simp at hrec
    | cons v rest =>
      by_cases hm : v.timestamp = c.timestamp ∧ v.path = c.path ∧
          v.version = c.version
      · rw [hv, reconcile_cons_hit c v rest h0 hm] at hrec
        have hbrest : b = rest :=
          (congrArg Prod.fst (Option.some_inj.mp hrec)).symm
        have hrest : rest ≠ [] := hbrest ▸ hb
        have hup : upToDateB c (v :: rest) = false := by
          cases rest with
          | nil => exact absurd rfl hrest
          | cons y ys => rfl
        unfold syncStepB
        rw [hv, hup]
        simp only [Bool.false_eq_true, if_false]
        have htx : txB c s (v :: rest) = s' := by
          rw [txB_cons, if_pos ⟨h0, hm.2.1, hm.2.2, hm.1⟩]
          exact insertAllB_of_ok rest s s' (by rw [← hbrest]; exact hins)
        rw [htx, getLastD_cons_irrel v rest zeroVersionInfo hrest,
          ← hbrest, ← hc']
      · rw [hv, reconcile_cons_miss c v rest h0 hm] at hrec
        have hbv : b = v :: rest :=
          (congrArg Prod.fst (Option.some_inj.mp hrec)).symm
        have hup : upToDateB c (v :: rest) = false := by
          cases rest with
          | nil =>
            rw [upToDateB_single c v]
            simp
            intro hp hver hts
            exact absurd ⟨hts, hp, hver⟩ hm
          | cons y ys => rfl
        unfold syncStepB
        rw [hv, hup]
        simp only [Bool.false_eq_true, if_false]
        have htx : txB c s (v :: rest) = s' := by
          rw [txB_cons,
            if_neg (by intro hcon; exact hm ⟨hcon.2.2.2, hcon.2.1, hcon.2.2.1⟩)]
          exact insertAllB_of_ok (v :: rest) s s' (by rw [← hbv]; exact hins)
        rw [htx, ← hbv, ← hc']

/-- C9 counterexample: with the store already holding (p, v1, t=5), cursor
at that record, and a feed that re-emits (p, v1) with a refreshed
timestamp 9, the refactored engine (`SynchronizeDatabase`) aborts with the
store unchanged (plain insert hits the unique key) while the original
inline engine (`updateCmd`) replaces the row and terminates in DONE — the
two engines do not behave identically. -/
theorem c9_engines_differ_cx :
    syncRun
      (fun since => getVersions [⟨"p", "v1", 5⟩, ⟨"p", "v1", 9⟩] since 2000)
      3 [⟨"p", "v1", 5⟩] ⟨"p", "v1", 5⟩ = .fail [⟨"p", "v1", 5⟩] ∧
    syncRunB
      (fun since => getVersions [⟨"p", "v1", 5⟩, ⟨"p", "v1", 9⟩] since 2000)
      3 [⟨"p", "v1", 5⟩] ⟨"p", "v1", 5⟩ =
      .done [⟨"p", "v1", 9⟩] ⟨"p", "v1", 9⟩ := by
  exact ⟨by decide, by decide⟩

/-- C9 as amended: the two engines agree whenever the refactored engine
completes — provided the feed never hands out records with the zero
timestamp, any run of `SynchronizeDatabase` that reaches DONE is matched
by the original inline engine step for step: same termination decision,
same inserted records, same final store and cursor.  (They diverge exactly
where the counterexample shows: a batch write that fails in the refactored
engine, or a zero-record fetch under a non-zero cursor.) -/
theorem c9_amended_equivalence (f : Nat → List VersionInfo)
    (hpos : ∀ since r, r ∈ f since → r.timestamp ≠ 0) :
    ∀ (n : Nat) (s : Store) (c : VersionInfo) (S : Store) (cf : VersionInfo),
      syncRun f n s c = .done S cf → syncRunB f n s c = .done S cf := by
  intro n
  induction n with
  | zero => intro s c S cf h; simp [syncRun] at h
  | succ n ih =>
    intro s c S cf h
    rw [syncRun] at h
    cases hstep : syncStep f s c with
    | done s₁ =>
      rw [hstep] at h
      simp at h
      rw [syncRunB, stepB_agree_done f s c s₁ hstep]
      rw [h.1, h.2]
    | crash => rw [hstep] at h; simp at h
    | fail s₁ => rw [hstep] at h; simp at h
    | next s' c' =>
      rw [hstep] at h
      rw [syncRunB, stepB_agree_next f s c s' c' hpos hstep]
      exact ih s' c' S cf h

/-- Witness for C9 as amended: a one-record feed on which the refactored
engine completes; the original engine reaches the same DONE state. -/
theorem c9_witness :
    syncRunB (fun _ => [⟨"a", "v1", 1⟩]) 3 [] zeroVersionInfo =
      .done [⟨"a", "v1", 1⟩] ⟨"a", "v1", 1⟩ :=
  c9_amended_equivalence (fun _ => [⟨"a", "v1", 1⟩])
    (by
      intro since r hr
      simp at hr
      subst hr
      decide)
    3 [] zeroVersionInfo [⟨"a", "v1", 1⟩] ⟨"a", "v1", 1⟩ (by decide)

lemma getLastD_ne_nil_irrel (b : List VersionInfo) (d d' : VersionInfo)
    (h : b ≠ []) : b.getLastD d = b.getLastD d' := by
  match b with
  | [] => exact absurd rfl h
  | y :: ys => rw [List.getLastD_cons, List.getLastD_cons]

lemma getLastD_append (s b : List VersionInfo) (d : VersionInfo)
    (h : b ≠ []) : (s ++ b).getLastD d = b.getLastD d := by
  induction s generalizing d with
  | nil => rfl
  | cons x s ih =>
    rw [List.cons_append, List.getLastD_cons, ih x]
    exact getLastD_ne_nil_irrel b x d h

lemma foldl_pick_mem :
    ∀ (l : List VersionInfo) (r : VersionInfo),
      l.foldl
        (fun acc x => if timestampTextLt acc.timestamp x.timestamp then x
          else acc) r ∈ r :: l := by
  intro l
  induction l with
  | nil => intro r; simp
  | cons x xs ih =>
    intro r
    rw [List.foldl_cons]
    rcases List.mem_cons.mp
        (ih (if timestampTextLt r.timestamp x.timestamp then x else r)) with
      h1 | h1
    · rw [h1]
      by_cases hc : timestampTextLt r.timestamp x.timestamp
      · simp [hc]
      · simp [hc]
    · exact List.mem_cons_of_mem r (List.mem_cons_of_mem x h1)

/-- Whatever row the TEXT ordering selects, it is a row of the store. -/
lemma lastVersionInfo_mem (s : Store) (h : s ≠ []) :
    lastVersionInfo s ∈ s := by
  match s, h with
  | r :: rest, _ =>
    show rest.foldl _ r ∈ r :: rest
    exact foldl_pick_mem rest r

lemma hasPathVersion_of_mem (s : Store) (r : VersionInfo) (h : r ∈ s) :
    hasPathVersion s r.path r.version = true := by
  unfold hasPathVersion
  rw [List.any_eq_true]
  exact ⟨r, h, by simp⟩

lemma mem_take_of_ts_le (l : List VersionInfo)
    (hl : l.Pairwise fun a b => a.timestamp < b.timestamp) (k : Nat)
    (hk : l.take k ≠ []) (x : VersionInfo) (hx : x ∈ l)
    (hle : x.timestamp ≤ ((l.take k).getLastD zeroVersionInfo).timestamp) :
    x ∈ l.take k := by
  have hsplit : l.take k ++ l.drop k = l := List.take_append_drop k l
  rw [← hsplit] at hx
  rcases List.mem_append.mp hx with h | h
  · exact h
  · exfalso
    rw [← hsplit] at hl
    obtain ⟨-, -, hcross⟩ := List.pairwise_append.mp hl
    have hg : (l.take k).getLastD zeroVersionInfo ∈ l.take k :=
      getLastD_mem _ _ hk
    have := hcross _ hg x h
    omega

lemma mem_ts_le_getLastD :
    ∀ (s : Store), s.Pairwise (fun a b => a.timestamp < b.timestamp) →
      ∀ r ∈ s, r.timestamp ≤ (s.getLastD zeroVersionInfo).timestamp := by
  intro s
  induction s with
  | nil => intro _ r hr; simp at hr
  | cons x xs ih =>
    intro hs r hr
    obtain ⟨hx, hxs⟩ := List.pairwise_cons.mp hs
    by_cases hxs0 : xs = []
    · subst hxs0
      simp at hr
      subst hr
      simp [List.getLastD_cons]
    · have hlast : ((x :: xs).getLastD zeroVersionInfo) =
          xs.getLastD zeroVersionInfo := by
        rw [List.getLastD_cons]
        exact getLastD_ne_nil_irrel xs x zeroVersionInfo hxs0
      rw [hlast]
      rcases List.mem_cons.mp hr with hrx | hrxs
      · subst hrx
        have hmem : xs.getLastD zeroVersionInfo ∈ xs :=
          getLastD_mem xs zeroVersionInfo hxs0
        exact le_of_lt (hx _ hmem)
      · exact ih hxs r hrxs

lemma filter_since_of_mem_sorted (feed : List VersionInfo) (c : VersionInfo)
    (hsorted : feed.Pairwise fun a b => a.timestamp < b.timestamp)
    (hc : c ∈ feed) :
    ∃ post, (feed.filter fun r => c.timestamp ≤ r.timestamp) = c :: post ∧
      post.Pairwise (fun a b => a.timestamp < b.timestamp) ∧
      (∀ r ∈ post, c.timestamp < r.timestamp) ∧ (∀ r ∈ post, r ∈ feed) ∧
      ∀ r ∈ feed, r.timestamp < c.timestamp ∨ r = c ∨ r ∈ post := by
  obtain ⟨pre, post, rfl⟩ := List.append_of_mem hc
  obtain ⟨hpre, hcpost, hcross⟩ := List.pairwise_append.mp hsorted
  obtain ⟨hcpost1, hpostpair⟩ := List.pairwise_cons.mp hcpost
  refine ⟨post, ?_, hpostpair, hcpost1, fun r hr => ?_, fun r hr => ?_⟩
  · rw [List.filter_append]
    have h1 : (pre.filter fun r => c.timestamp ≤ r.timestamp) = [] := by
      rw [List.filter_eq_nil_iff]
      intro a ha
      have := hcross a ha c (List.mem_cons_self c post)
      simp
      omega
    have h2 : ((c :: post).filter fun r => c.timestamp ≤ r.timestamp) =
        c :: post := by
      rw [List.filter_eq_self]
      intro a ha
      rcases List.mem_cons.mp ha with h | h
      · subst h; simp
      · have := hcpost1 a h
        simp
        omega
    rw [h1, h2, List.nil_append]
  · exact List.mem_append_right pre (List.mem_cons_of_mem c hr)
  · rcases List.mem_append.mp hr with h | h
    · exact Or.inl (hcross r h c (List.mem_cons_self c post))
    · rcases List.mem_cons.mp h with h | h
      · exact Or.inr (Or.inl h)
      · exact Or.inr (Or.inr h)

/-- Loop invariant of a `SynchronizeDatabase` run against a feed with
strictly increasing timestamps: the store is strictly sorted by timestamp,
every row came from the feed, every feed record at or before the cursor
timestamp is stored, and the cursor is either still the zero value over an
empty store, or a feed record with positive timestamp sitting as the
store's last (hence numerically maximal) row. -/
def SyncInv (feed : List VersionInfo) (s : Store) (c : VersionInfo) : Prop :=
  s.Pairwise (fun a b => a.timestamp < b.timestamp) ∧
  (∀ r ∈ s, r ∈ feed) ∧
  (∀ r ∈ feed, r.timestamp ≤ c.timestamp → r ∈ s) ∧
  ((s = [] ∧ c = zeroVersionInfo) ∨
    (c ∈ feed ∧ 0 < c.timestamp ∧ s ≠ [] ∧
      c = s.getLastD zeroVersionInfo))

lemma syncStep_preserves_inv (feed : List VersionInfo)
    (hpos : ∀ r ∈ feed, 0 < r.timestamp)
    (hsorted : feed.Pairwise fun a b => a.timestamp < b.timestamp)
    (s : Store) (c : VersionInfo) (s' : Store) (c' : VersionInfo)
    (hinv : SyncInv feed s c)
    (h : syncStep (fun since => getVersions feed since 2000) s c =
      .next s' c') : SyncInv feed s' c' := by
  obtain ⟨b, viol, hrec, hb, hins, hc', hs'⟩ :=
    syncStep_next_inv (fun since => getVersions feed since 2000) s c s' c' h
  obtain ⟨hpair, hsub, hcov, hdisj⟩ := hinv
  rcases hdisj with ⟨hsnil, hczero⟩ | ⟨hcfeed, hcpos, hsne, hclast⟩
  · have h0 : c.timestamp = 0 := by rw [hczero]; rfl
    rw [reconcile_zero c _ h0] at hrec
    have hbf : getVersions feed c.timestamp 2000 = b :=
      congrArg Prod.fst (Option.some_inj.mp hrec)
    have hfeed : getVersions feed c.timestamp 2000 = feed.take 2000 := by
      unfold getVersions
      have : (feed.filter fun r => c.timestamp ≤ r.timestamp) = feed := by
        rw [List.filter_eq_self]
        intro a _
        simp [h0]
      rw [this]
    have hbtake : b = feed.take 2000 := by rw [← hbf, hfeed]
    have hbsub : ∀ r ∈ b, r ∈ feed := by
      rw [hbtake]; exact fun r hr => List.take_subset 2000 feed hr
    have hbpair : b.Pairwise fun a b => a.timestamp < b.timestamp := by
      rw [hbtake]
      exact List.Pairwise.sublist (List.take_sublist 2000 feed) hsorted
    have hc'mem : c' ∈ b := by rw [hc']; exact getLastD_mem b zeroVersionInfo hb
    refine ⟨?_, ?_, ?_,
      Or.inr ⟨hbsub c' hc'mem, hpos c' (hbsub c' hc'mem), ?_, ?_⟩⟩
    · rw [hs', hsnil, List.nil_append]; exact hbpair
    · rw [hs', hsnil, List.nil_append]; exact hbsub
    · rw [hs', hsnil, List.nil_append]
      intro r hr hle
      have hle2 : r.timestamp ≤
          ((feed.take 2000).getLastD zeroVersionInfo).timestamp := by
        rw [← hbtake, ← hc']
        exact hle
      rw [hbtake]
      exact mem_take_of_ts_le feed hsorted 2000 (by rw [← hbtake]; exact hb)
        r hr hle2
    · rw [hs', hsnil, List.nil_append]; exact hb
    · rw [hs', hsnil, List.nil_append, hc']
  · have h0 : ¬c.timestamp = 0 := by omega
    obtain ⟨post, hfilter, hpostpair, hpostgt, hpostfeed, htri⟩ :=
      filter_since_of_mem_sorted feed c hsorted hcfeed
    have hfetch : getVersions feed c.timestamp 2000 = c :: post.take 1999 := by
      unfold getVersions
      rw [hfilter]
      rfl
    rw [hfetch, reconcile_cons_hit c c (post.take 1999) h0 ⟨rfl, rfl, rfl⟩]
      at hrec
    have hbtake : b = post.take 1999 :=
      (congrArg Prod.fst (Option.some_inj.mp hrec)).symm
    have hbsubpost : ∀ r ∈ b, r ∈ post := by
      rw [hbtake]; exact fun r hr => List.take_subset 1999 post hr
    have hbpair : b.Pairwise fun a b => a.timestamp < b.timestamp := by
      rw [hbtake]
      exact List.Pairwise.sublist (List.take_sublist 1999 post) hpostpair
    have hc'mem : c' ∈ b := by rw [hc']; exact getLastD_mem b zeroVersionInfo hb
    have hs'pair : (s ++ b).Pairwise fun a b => a.timestamp < b.timestamp := by
      rw [List.pairwise_append]
      refine ⟨hpair, hbpair, fun a ha r hr => ?_⟩
      have h1 : a.timestamp ≤ c.timestamp := by
        rw [hclast]
        exact mem_ts_le_getLastD s hpair a ha
      have h2 : c.timestamp < r.timestamp := hpostgt r (hbsubpost r hr)
      omega
    refine ⟨?_, ?_, ?_,
      Or.inr ⟨hpostfeed c' (hbsubpost c' hc'mem),
        hpos c' (hpostfeed c' (hbsubpost c' hc'mem)), ?_, ?_⟩⟩
    · rw [hs']; exact hs'pair
    · rw [hs']
      intro r hr
      rcases List.mem_append.mp hr with hrs | hrb
      · exact hsub r hrs
      · exact hpostfeed r (hbsubpost r hrb)
    · rw [hs']
      intro r hr hle
      rcases htri r hr with hlt2 | heq | hpostmem
      · exact List.mem_append_left b (hcov r hr (le_of_lt hlt2))
      · subst heq
        refine List.mem_append_left b ?_
        rw [hclast]
        exact getLastD_mem s zeroVersionInfo hsne
      · refine List.mem_append_right s ?_
        have hle2 : r.timestamp ≤
            ((post.take 1999).getLastD zeroVersionInfo).timestamp := by
          rw [← hbtake, ← hc']
          exact hle
        rw [hbtake]
        exact mem_take_of_ts_le post hpostpair 1999
          (by rw [← hbtake]; exact hb) r hpostmem hle2
    · rw [hs']
      intro hcon
      exact hb (List.append_eq_nil.mp hcon).2
    · rw [hs', getLastD_append s b zeroVersionInfo hb, hc']

lemma syncRun_done_inv (feed : List VersionInfo)
    (hpos : ∀ r ∈ feed, 0 < r.timestamp)
    (hsorted : feed.Pairwise fun a b => a.timestamp < b.timestamp) :
    ∀ (n : Nat) (s : Store) (c : VersionInfo) (S : Store) (cf : VersionInfo),
      SyncInv feed s c →
      syncRun (fun since => getVersions feed since 2000) n s c = .done S cf →
      SyncInv feed S cf ∧
      syncStep (fun since => getVersions feed since 2000) S cf = .done S := by
  intro n
  induction n with
  | zero => intro s c S cf _ h; simp [syncRun] at h
  | succ n ih =>
    intro s c S cf hinv h
    rw [syncRun] at h
    cases hstep : syncStep (fun since => getVersions feed since 2000) s c with
    | done s₁ =>
      rw [hstep] at h
      simp at h
      obtain ⟨hs₁, -⟩ := syncStep_done_inv _ s c s₁ hstep
      subst hs₁
      rw [← h.1, ← h.2]
      exact ⟨hinv, hstep⟩
    | crash => rw [hstep] at h; simp at h
    | fail s₁ => rw [hstep] at h; simp at h
    | next s' c' =>
      rw [hstep] at h
      exact ih s' c' S cf
        (syncStep_preserves_inv feed hpos hsorted s c s' c' hinv hstep) h

lemma syncStep_done_feed_subset (feed : List VersionInfo)
    (hsorted : feed.Pairwise fun a b => a.timestamp < b.timestamp)
    (S : Store) (cf : VersionInfo) (hinv : SyncInv feed S cf)
    (hstep : syncStep (fun since => getVersions feed since 2000) S cf =
      .done S) :
    ∀ r ∈ feed, r ∈ S := by
  obtain ⟨hpair, hsub, hcov, hdisj⟩ := hinv
  obtain ⟨-, viol, hrec⟩ := syncStep_done_inv _ S cf S hstep
  rcases hdisj with ⟨hSnil, hczero⟩ | ⟨hcfeed, hcpos, hSne, hclast⟩
  · have h0 : cf.timestamp = 0 := by rw [hczero]; rfl
    rw [reconcile_zero cf _ h0] at hrec
    have hfe : getVersions feed cf.timestamp 2000 = [] :=
      congrArg Prod.fst (Option.some_inj.mp hrec)
    have hfilter : (feed.filter fun r => cf.timestamp ≤ r.timestamp) =
        feed := by
      rw [List.filter_eq_self]
      intro a _
      simp [h0]
    unfold getVersions at hfe
    rw [hfilter] at hfe
    have hfeednil : feed = [] := by
      rcases List.take_eq_nil_iff.mp hfe with h | h
      · omega
      · exact h
    rw [hfeednil]
    intro r hr
    simp at hr
  · have h0 : ¬cf.timestamp = 0 := by omega
    obtain ⟨post, hfilter, hpostpair, hpostgt, hpostfeed, htri⟩ :=
      filter_since_of_mem_sorted feed cf hsorted hcfeed
    have hfetch : getVersions feed cf.timestamp 2000 =
        cf :: post.take 1999 := by
      unfold getVersions
      rw [hfilter]
      rfl
    rw [hfetch, reconcile_cons_hit cf cf (post.take 1999) h0 ⟨rfl, rfl, rfl⟩]
      at hrec
    have hposttake : post.take 1999 = [] :=
      congrArg Prod.fst (Option.some_inj.mp hrec)
    have hpost0 : post = [] := by
      rcases List.take_eq_nil_iff.mp hposttake with h | h
      · omega
      · exact h
    intro r hr
    rcases htri r hr with hlt2 | heq | hp
    · exact hcov r hr (le_of_lt hlt2)
    · subst heq
      rw [hclast]
      exact getLastD_mem S zeroVersionInfo hSne
    · rw [hpost0] at hp
      simp at hp

/-- One replay iteration over a fully synchronized store: whichever row
the TEXT ordering hands out as the cursor, the step either finds nothing
left to insert and stops in DONE, or the overlap drop leaves only
already-stored records and the plain insert aborts the batch — in both
cases the store is left exactly as it was. -/
lemma replay_step (feed : List VersionInfo) (S : Store)
    (hpos : ∀ r ∈ feed, 0 < r.timestamp)
    (hsorted : feed.Pairwise fun a b => a.timestamp < b.timestamp)
    (hSfeed : ∀ r ∈ S, r ∈ feed) (hfeedS : ∀ r ∈ feed, r ∈ S) :
    syncStep (fun since => getVersions feed since 2000) S
      (lastVersionInfo S) = .done S ∨
    syncStep (fun since => getVersions feed since 2000) S
      (lastVersionInfo S) = .fail S := by
  by_cases hS : S = []
  · subst hS
    have hfeednil : feed = [] :=
      List.eq_nil_iff_forall_not_mem.mpr fun a ha =>
        (List.not_mem_nil a) (hfeedS a ha)
    left
    rw [hfeednil]
    decide
  · have hc2mem : lastVersionInfo S ∈ S := lastVersionInfo_mem S hS
    have hc2feed : lastVersionInfo S ∈ feed := hSfeed _ hc2mem
    have h0 : ¬(lastVersionInfo S).timestamp = 0 := by
      have := hpos _ hc2feed
      omega
    obtain ⟨post, hfilter, hpostpair, hpostgt, hpostfeed, htri⟩ :=
      filter_since_of_mem_sorted feed (lastVersionInfo S) hsorted hc2feed
    have hfetch : getVersions feed (lastVersionInfo S).timestamp 2000 =
        lastVersionInfo S :: post.take 1999 := by
      unfold getVersions
      rw [hfilter]
      rfl
    have hrec : reconcile (lastVersionInfo S)
        (getVersions feed (lastVersionInfo S).timestamp 2000) =
        some (post.take 1999, false) := by
      rw [hfetch]
      exact reconcile_cons_hit _ _ _ h0 ⟨rfl, rfl, rfl⟩
    by_cases hb : post.take 1999 = []
    · left
      unfold syncStep
      rw [hrec]
      simp [hb]
    · right
      obtain ⟨h₁, tl, htl⟩ := List.exists_cons_of_ne_nil hb
      have hmem1 : h₁ ∈ post.take 1999 := by
        rw [htl]
        exact List.mem_cons_self h₁ tl
      have h₁S : h₁ ∈ S :=
        hfeedS h₁ (hpostfeed h₁ (List.take_subset 1999 post hmem1))
      have herr : insertVersions S (post.take 1999) = .error () :=
        insertVersions_error_of_dup (post.take 1999) S h₁ hmem1
          (hasPathVersion_of_mem S h₁ h₁S)
      unfold syncStep
      rw [hrec]
      simp [hb, herr]

/-- C7: replay commits zero additional rows.  Against a feed with strictly
increasing positive timestamps, if a run of `SynchronizeDatabase` starting
from the empty store ends in DONE with store `S`, a second run — whose
cursor is re-derived by `lastVersionInfo` under the stored text's byte
order — finishes its very first iteration with the store still exactly
`S`: in DONE when nothing is left beyond the derived cursor, and otherwise
in FAILED because the overlap drop leaves only already-stored records
whose plain insert aborts the batch (the transaction rolls back, writing
nothing).  Either way the replay inserts zero additional Version rows. -/
theorem c7_replay_idempotent (feed : List VersionInfo)
    (hpos : ∀ r ∈ feed, 0 < r.timestamp)
    (hsorted : feed.Pairwise fun a b => a.timestamp < b.timestamp)
    (n₁ n₂ : Nat) (S : Store) (cf : VersionInfo)
    (h1 : syncRun (fun since => getVersions feed since 2000) n₁ []
      zeroVersionInfo = .done S cf)
    (hn : n₂ ≠ 0) :
    syncRun (fun since => getVersions feed since 2000) n₂ S
      (lastVersionInfo S) = .done S (lastVersionInfo S) ∨
    syncRun (fun since => getVersions feed since 2000) n₂ S
      (lastVersionInfo S) = .fail S := by
  have hinv0 : SyncInv feed [] zeroVersionInfo := by
    refine ⟨List.Pairwise.nil, ?_, ?_, Or.inl ⟨rfl, rfl⟩⟩
    · intro r hr
      simp at hr
    · intro r hr hle
      have h1 := hpos r hr
      have h2 : r.timestamp ≤ 0 := hle
      exact absurd h2 (by omega)
  obtain ⟨hinvS, hstepS⟩ :=
    syncRun_done_inv feed hpos hsorted n₁ [] zeroVersionInfo S cf hinv0 h1
  have hfeedS : ∀ r ∈ feed, r ∈ S :=
    syncStep_done_feed_subset feed hsorted S cf hinvS hstepS
  have hSfeed : ∀ r ∈ S, r ∈ feed := hinvS.2.1
  obtain ⟨m, rfl⟩ : ∃ m, n₂ = m + 1 := ⟨n₂ - 1, by omega⟩
  rcases replay_step feed S hpos hsorted hSfeed hfeedS with h | h
  · left
    rw [syncRun, h]
  · right
    rw [syncRun, h]

/-- Witness for C7 on a two-record feed: the first run completes with both
rows and the replay's first iteration leaves the store unchanged (here the
DONE branch, since both fractions format to the same width and the text
order agrees with the numeric one). -/
theorem c7_witness :
    syncRun
      (fun since => getVersions [⟨"a", "v1", 1⟩, ⟨"b", "v1", 2⟩] since 2000)
      1 [⟨"a", "v1", 1⟩, ⟨"b", "v1", 2⟩]
      (lastVersionInfo [⟨"a", "v1", 1⟩, ⟨"b", "v1", 2⟩]) =
      .done [⟨"a", "v1", 1⟩, ⟨"b", "v1", 2⟩]
        (lastVersionInfo [⟨"a", "v1", 1⟩, ⟨"b", "v1", 2⟩]) ∨
    syncRun
      (fun since => getVersions [⟨"a", "v1", 1⟩, ⟨"b", "v1", 2⟩] since 2000)
      1 [⟨"a", "v1", 1⟩, ⟨"b", "v1", 2⟩]
      (lastVersionInfo [⟨"a", "v1", 1⟩, ⟨"b", "v1", 2⟩]) =
      .fail [⟨"a", "v1", 1⟩, ⟨"b", "v1", 2⟩] :=
  c7_replay_idempotent [⟨"a", "v1", 1⟩, ⟨"b", "v1", 2⟩]
    (by decide) (by decide) 3 1 [⟨"a", "v1", 1⟩, ⟨"b", "v1", 2⟩]
    ⟨"b", "v1", 2⟩ (by decide) (by decide)

/-- The byte order genuinely inverts on trimmed fractions: with stored
rows at 12 s and 12.5 s, `…12Z` sorts above `…12.5Z`, so the derived
cursor is the 12 s row, and the replay aborts on the plain insert of the
already-stored 12.5 s record (transaction rolled back, store unchanged)
instead of reaching DONE. -/
lemma replay_abort_on_text_order_example :
    lastVersionInfo
      [⟨"a", "v1", 12000000000⟩, ⟨"b", "v1", 12500000000⟩] =
      ⟨"a", "v1", 12000000000⟩ ∧
    syncRun
      (fun since => getVersions
        [⟨"a", "v1", 12000000000⟩, ⟨"b", "v1", 12500000000⟩] since 2000) 1
      [⟨"a", "v1", 12000000000⟩, ⟨"b", "v1", 12500000000⟩]
      (lastVersionInfo
        [⟨"a", "v1", 12000000000⟩, ⟨"b", "v1", 12500000000⟩]) =
      .fail [⟨"a", "v1", 12000000000⟩, ⟨"b", "v1", 12500000000⟩] :=
  ⟨by decide, by decide⟩

/-! RFC3339Nano timestamp round trip (claim C10).

`insertVersions` stores `v.Timestamp.Format(time.RFC3339Nano)` and
`lastVersionInfo` reads the cursor back with
`time.Parse(time.RFC3339Nano, timestamp)`.  The layout is
`2006-01-02T15:04:05.999999999Z07:00`: zero-padded calendar fields, a
fractional second printed with trailing zeros removed and omitted entirely
when zero, and `Z` for UTC (the feed's records decode as UTC instants with
no monotonic clock reading, so Go struct equality reduces to field
equality, which the round trip below preserves). -/

def isDigitChar (c : Char) : Bool := 48 ≤ c.toNat ∧ c.toNat ≤ 57

def digitVal (c : Char) : Nat := c.toNat - 48

def digitsToNat (ds : List Char) : Nat :=
  ds.foldl (fun a c => 10 * a + digitVal c) 0

/-- A Go `time.Time` instant in UTC, by calendar fields. -/
structure GoTime where
  year : Nat
  month : Nat
  day : Nat
  hour : Nat
  minute : Nat
  second : Nat
  nsec : Nat
deriving DecidableEq, Repr

/-- `Format(time.RFC3339Nano)` of a UTC instant. -/
def formatRFC3339Nano (t : GoTime) : List Char :=
  pad 4 t.year ++ '-' :: (pad 2 t.month ++ '-' :: (pad 2 t.day ++
    'T' :: (pad 2 t.hour ++ ':' :: (pad 2 t.minute ++ ':' :: (pad 2 t.second
      ++ (fracNano t.nsec ++ ['Z']))))))

/-- Fixed-width decimal field parser: consumes exactly `w` digit
characters into the accumulator. -/
def parseFixed : Nat → Nat → List Char → Option (Nat × List Char)
  | 0, acc, cs => some (acc, cs)
  | _ + 1, _, [] => none
  | w + 1, acc, c :: cs =>
    if isDigitChar c then parseFixed w (10 * acc + digitVal c) cs else none

def expectChar (c : Char) : List Char → Option (List Char)
  | [] => none
  | x :: xs => if x = c then some xs else none

/-- Parse of the optional fractional second followed by the `Z` zone
designator: an absent fraction is zero nanoseconds; digits after the dot
are scaled to nanoseconds by their count, as Go's fraction parser does. -/
def parseNsecZ (cs : List Char) : Option Nat :=
  match cs with
  | [] => none
  | c :: rest =>
    if c = 'Z' then
      if rest = [] then some 0 else none
    else if c = '.' then
      if rest.takeWhile isDigitChar = [] then none
      else if 9 < (rest.takeWhile isDigitChar).length then none
      else if rest.drop (rest.takeWhile isDigitChar).length = ['Z'] then
        some (digitsToNat (rest.takeWhile isDigitChar) *
          10 ^ (9 - (rest.takeWhile isDigitChar).length))
      else none
    else none

/-- `time.Parse(time.RFC3339Nano, _)` for a UTC (`Z`) instant. -/
def parseRFC3339Nano (cs : List Char) : Option GoTime :=
  (parseFixed 4 0 cs).bind fun yc =>
  (expectChar '-' yc.2).bind fun cs1 =>
  (parseFixed 2 0 cs1).bind fun moc =>
  (expectChar '-' moc.2).bind fun cs2 =>
  (parseFixed 2 0 cs2).bind fun dc =>
  (expectChar 'T' dc.2).bind fun cs3 =>
  (parseFixed 2 0 cs3).bind fun hc =>
  (expectChar ':' hc.2).bind fun cs4 =>
  (parseFixed 2 0 cs4).bind fun mic =>
  (expectChar ':' mic.2).bind fun cs5 =>
  (parseFixed 2 0 cs5).bind fun sc =>
  (parseNsecZ sc.2).map fun ns =>
  ⟨yc.1, moc.1, dc.1, hc.1, mic.1, sc.1, ns⟩

lemma digitChar_toNat (d : Nat) (h : d < 10) : (digitChar d).toNat = 48 + d := by
  interval_cases d <;> rfl

lemma isDigitChar_digitChar (d : Nat) (h : d < 10) :
    isDigitChar (digitChar d) = true := by
  interval_cases d <;> rfl

lemma digitVal_digitChar (d : Nat) (h : d < 10) :
    digitVal (digitChar d) = d := by
  interval_cases d <;> rfl

lemma pad_length : ∀ (w n : Nat), (pad w n).length = w := by
  intro w
  induction w with
  | zero => intro n; rfl
  | succ w ih => intro n; simp [pad, ih]

lemma pad_all_digits :
    ∀ (w n : Nat), n < 10 ^ w → ∀ c ∈ pad w n, isDigitChar c = true := by
  intro w
  induction w with
  | zero => intro n _ c hc; simp [pad] at hc
  | succ w ih =>
    intro n hn c hc
    rw [pad] at hc
    rcases List.mem_cons.mp hc with hhd | htl
    · subst hhd
      refine isDigitChar_digitChar _ ?_
      rw [Nat.div_lt_iff_lt_mul (Nat.pos_pow_of_pos w (by omega))]
      calc n < 10 ^ (w + 1) := hn
        _ = 10 * 10 ^ w := by rw [pow_succ]; ring
    · exact ih (n % 10 ^ w) (Nat.mod_lt n (Nat.pos_pow_of_pos w (by omega)))
        c htl

lemma parseFixed_pad :
    ∀ (w acc n : Nat) (rest : List Char), n < 10 ^ w →
      parseFixed w acc (pad w n ++ rest) = some (acc * 10 ^ w + n, rest) := by
  intro w
  induction w with
  | zero =>
    intro acc n rest hn
    interval_cases n
    simp [pad, parseFixed]
  | succ w ih =>
    intro acc n rest hn
    have hq : n / 10 ^ w < 10 := by
      rw [Nat.div_lt_iff_lt_mul (Nat.pos_pow_of_pos w (by omega))]
      calc n < 10 ^ (w + 1) := hn
        _ = 10 * 10 ^ w := by rw [pow_succ]; ring
    rw [pad, List.cons_append, parseFixed,
      if_pos (isDigitChar_digitChar _ hq), digitVal_digitChar _ hq,
      ih (10 * acc + n / 10 ^ w) (n % 10 ^ w) rest
        (Nat.mod_lt n (Nat.pos_pow_of_pos w (by omega)))]
    congr 2
    have hdm : 10 ^ w * (n / 10 ^ w) + n % 10 ^ w = n := Nat.div_add_mod n _
    calc (10 * acc + n / 10 ^ w) * 10 ^ w + n % 10 ^ w
        = acc * (10 ^ w * 10) + (10 ^ w * (n / 10 ^ w) + n % 10 ^ w) := by
          ring
      _ = acc * 10 ^ (w + 1) + n := by rw [hdm, pow_succ]

lemma foldl_digits_zeros :
    ∀ (k a : Nat),
      List.foldl (fun a c => 10 * a + digitVal c) a
        (List.replicate k '0') = a * 10 ^ k := by
  intro k
  induction k with
  | zero => intro a; simp
  | succ k ih =>
    intro a
    rw [List.replicate_succ, List.foldl_cons]
    have h0 : digitVal '0' = 0 := rfl
    rw [h0, ih (10 * a + 0)]
    rw [pow_succ]
    ring

lemma foldl_digits_pad :
    ∀ (w acc n : Nat), n < 10 ^ w →
      List.foldl (fun a c => 10 * a + digitVal c) acc (pad w n) =
        acc * 10 ^ w + n := by
  intro w
  induction w with
  | zero =>
    intro acc n hn
    interval_cases n
    simp [pad]
  | succ w ih =>
    intro acc n hn
    have hq : n / 10 ^ w < 10 := by
      rw [Nat.div_lt_iff_lt_mul (Nat.pos_pow_of_pos w (by omega))]
      calc n < 10 ^ (w + 1) := hn
        _ = 10 * 10 ^ w := by rw [pow_succ]; ring
    rw [pad, List.foldl_cons, digitVal_digitChar _ hq,
      ih (10 * acc + n / 10 ^ w) (n % 10 ^ w)
        (Nat.mod_lt n (Nat.pos_pow_of_pos w (by omega)))]
    have hdm : 10 ^ w * (n / 10 ^ w) + n % 10 ^ w = n := Nat.div_add_mod n _
    calc (10 * acc + n / 10 ^ w) * 10 ^ w + n % 10 ^ w
        = acc * (10 ^ w * 10) + (10 ^ w * (n / 10 ^ w) + n % 10 ^ w) := by
          ring
      _ = acc * 10 ^ (w + 1) + n := by rw [hdm, pow_succ]

lemma digitsToNat_append_zeros (l : List Char) (k : Nat) :
    digitsToNat (l ++ List.replicate k '0') = digitsToNat l * 10 ^ k := by
  unfold digitsToNat
  rw [List.foldl_append]
  exact foldl_digits_zeros k _

lemma dropTrailingZeros_spec (l : List Char) :
    ∃ k, l = dropTrailingZeros l ++ List.replicate k '0' := by
  have hsplit :
      (l.reverse.takeWhile fun c => c = '0') ++
        (l.reverse.dropWhile fun c => c = '0') = l.reverse := by
    simp
  have hrep : (l.reverse.takeWhile fun c => c = '0') =
      List.replicate (l.reverse.takeWhile fun c => c = '0').length '0' := by
    apply List.eq_replicate_of_mem
    intro b hb
    have := List.mem_takeWhile_imp hb
    simpa using this
  refine ⟨(l.reverse.takeWhile fun c => c = '0').length, ?_⟩
  calc l = l.reverse.reverse := (List.reverse_reverse l).symm
    _ = ((l.reverse.takeWhile fun c => c = '0') ++
        (l.reverse.dropWhile fun c => c = '0')).reverse := by rw [hsplit]
    _ = dropTrailingZeros l ++
        (l.reverse.takeWhile fun c => c = '0').reverse := by
          rw [List.reverse_append]; rfl
    _ = dropTrailingZeros l ++
        List.replicate (l.reverse.takeWhile fun c => c = '0').length '0' := by
          rw [hrep, List.reverse_replicate]
          simp

lemma takeWhile_all_append_single (p : Char → Bool) (z : Char) :
    ∀ (l : List Char), (∀ c ∈ l, p c = true) → p z = false →
      (l ++ [z]).takeWhile p = l := by
  intro l
  induction l with
  | nil => intro _ hz; simp [List.takeWhile_cons, hz]
  | cons x xs ih =>
    intro hall hz
    rw [List.cons_append, List.takeWhile_cons,
      hall x (List.mem_cons_self x xs)]
    simp only [if_true]
    rw [ih (fun c hc => hall c (List.mem_cons_of_mem x hc)) hz]

lemma parseNsecZ_fracNano (n : Nat) (h : n < 10 ^ 9) :
    parseNsecZ (fracNano n ++ ['Z']) = some n := by
  by_cases h0 : n = 0
  · subst h0
    rfl
  · rw [fracNano, if_neg h0]
    obtain ⟨k, hk⟩ := dropTrailingZeros_spec (pad 9 n)
    have hlen : (dropTrailingZeros (pad 9 n)).length + k = 9 := by
      have := congrArg List.length hk
      rw [List.length_append, List.length_replicate, pad_length] at this
      omega
    have hdigits : ∀ c ∈ dropTrailingZeros (pad 9 n), isDigitChar c = true :=
      fun c hc => pad_all_digits 9 n h c (hk ▸ List.mem_append_left _ hc)
    have hvalpad : digitsToNat (pad 9 n) = n := by
      have := foldl_digits_pad 9 0 n h
      unfold digitsToNat
      simpa using this
    have hval : digitsToNat (dropTrailingZeros (pad 9 n)) * 10 ^ k = n := by
      rw [← digitsToNat_append_zeros, ← hk, hvalpad]
    have hne : dropTrailingZeros (pad 9 n) ≠ [] := by
      intro hnil
      rw [hnil, List.nil_append] at hk
      rw [hk] at hvalpad
      have hz : digitsToNat (List.replicate k '0') = 0 := by
        unfold digitsToNat
        rw [foldl_digits_zeros k 0]
        simp
      rw [hz] at hvalpad
      exact h0 hvalpad.symm
    have hZ : isDigitChar 'Z' = false := rfl
    have htake : ((dropTrailingZeros (pad 9 n) ++ ['Z']).takeWhile
        isDigitChar) = dropTrailingZeros (pad 9 n) :=
      takeWhile_all_append_single isDigitChar 'Z' _ hdigits hZ
    rw [List.cons_append, parseNsecZ]
    rw [if_neg (by decide), if_pos rfl, htake, if_neg hne,
      if_neg (by omega), if_pos (by rw [List.drop_left]),
      show 9 - (dropTrailingZeros (pad 9 n)).length = k from by omega, hval]

/-- C10: formatting a timestamp with `time.RFC3339Nano` when persisting a
record (`insertVersions`) and parsing the stored text back with
`time.RFC3339Nano` at the next start (`lastVersionInfo`) returns the
original timestamp exactly — nanoseconds included — so the cursor read
back from the store can equal the first fetched record on
(path, version, timestamp) across restarts. -/
theorem c10_rfc3339nano_roundtrip (t : GoTime)
    (hy : t.year < 10 ^ 4) (hmo : t.month < 10 ^ 2) (hd : t.day < 10 ^ 2)
    (hh : t.hour < 10 ^ 2) (hmi : t.minute < 10 ^ 2) (hs : t.second < 10 ^ 2)
    (hns : t.nsec < 10 ^ 9) :
    parseRFC3339Nano (formatRFC3339Nano t) = some t := by
  rw [formatRFC3339Nano, parseRFC3339Nano]
  rw [parseFixed_pad 4 0 t.year _ hy]
  simp only [Option.bind_eq_bind, Option.some_bind]
  rw [show expectChar '-' ('-' :: (pad 2 t.month ++ '-' :: (pad 2 t.day ++
      'T' :: (pad 2 t.hour ++ ':' :: (pad 2 t.minute ++ ':' ::
      (pad 2 t.second ++ (fracNano t.nsec ++ ['Z']))))))) = some _ from rfl]
  simp only [Option.some_bind]
  rw [parseFixed_pad 2 0 t.month _ hmo]
  simp only [Option.some_bind]
  rw [show expectChar '-' ('-' :: (pad 2 t.day ++ 'T' :: (pad 2 t.hour ++
      ':' :: (pad 2 t.minute ++ ':' :: (pad 2 t.second ++
      (fracNano t.nsec ++ ['Z'])))))) = some _ from rfl]
  simp only [Option.some_bind]
  rw [parseFixed_pad 2 0 t.day _ hd]
  simp only [Option.some_bind]
  rw [show expectChar 'T' ('T' :: (pad 2 t.hour ++ ':' :: (pad 2 t.minute
      ++ ':' :: (pad 2 t.second ++ (fracNano t.nsec ++ ['Z']))))) =
      some _ from rfl]
  simp only [Option.some_bind]
  rw [parseFixed_pad 2 0 t.hour _ hh]
  simp only [Option.some_bind]
  rw [show expectChar ':' (':' :: (pad 2 t.minute ++ ':' ::
      (pad 2 t.second ++ (fracNano t.nsec ++ ['Z'])))) = some _ from rfl]
  simp only [Option.some_bind]
  rw [parseFixed_pad 2 0 t.minute _ hmi]
  simp only [Option.some_bind]
  rw [show expectChar ':' (':' :: (pad 2 t.second ++
      (fracNano t.nsec ++ ['Z']))) = some _ from rfl]
  simp only [Option.some_bind]
  rw [parseFixed_pad 2 0 t.second _ hs]
  simp only [Option.some_bind]
  rw [parseNsecZ_fracNano t.nsec hns]
  simp

/-- Witness for C10 at the concrete instant
2025-01-19T04:09:12.7021620Z (nanosecond field 702162000, whose formatted
fraction drops the trailing zeros). -/
theorem c10_witness :
    parseRFC3339Nano (formatRFC3339Nano ⟨2025, 1, 19, 4, 9, 12, 702162000⟩) =
      some ⟨2025, 1, 19, 4, 9, 12, 702162000⟩ :=
  c10_rfc3339nano_roundtrip ⟨2025, 1, 19, 4, 9, 12, 702162000⟩
    (by decide) (by decide) (by decide) (by decide) (by decide) (by decide)
    (by decide)

end Modhunt
